import Mathlib

/-!
Verification of a DC power-flow simulator (susceptance-matrix assembly,
Gauss-Jordan linear solver with partial pivoting, slack-bus reduction and
line-flow computation).  The Python source is embedded shallowly over the
exact rationals `ℚ`: matrices are lists of rows, vectors are lists, and
fallible functions return `Except String`.
-/

-- Structural decidable equality for `Except`, to evaluate the embedded
-- solver on concrete inputs.
deriving instance DecidableEq for Except

namespace PowerGrid

/-- Entry `(r, c)` of a list-of-rows matrix, defaulting to `0` out of range
(mirrors in-range Python indexing `M[r][c]`). -/
def mget (M : List (List ℚ)) (r c : ℕ) : ℚ :=
  (M.getD r []).getD c 0

/-- In-place update `M[r][c] += v` of Python, as a functional update. -/
def maddAt (M : List (List ℚ)) (r c : ℕ) (v : ℚ) : List (List ℚ) :=
  M.set r ((M.getD r []).set c (mget M r c + v))

/-- Loop body of `build_b_matrix`: for a line `(i, j, x)` with susceptance
`b = 1/x`, add `b` to `B[i][i]` and `B[j][j]` and subtract it from
`B[i][j]` and `B[j][i]`, in that order. -/
def addLine (B : List (List ℚ)) (l : ℕ × ℕ × ℚ) : List (List ℚ) :=
  let b := 1 / l.2.2
  maddAt (maddAt (maddAt (maddAt B l.1 l.1 b) l.2.1 l.2.1 b) l.1 l.2.1 (-b)) l.2.1 l.1 (-b)

/-- `build_b_matrix` from `power_grid_sim.py`: start from the `num_nodes ×
num_nodes` zero matrix and fold `addLine` over the line list. -/
def build_b_matrix (num_nodes : ℕ) (lines : List (ℕ × ℕ × ℚ)) : List (List ℚ) :=
  lines.foldl addLine (List.replicate num_nodes (List.replicate num_nodes 0))

/-- Map with the element index, starting from `k`. -/
def mapFrom (f : ℕ → ℚ → ℚ) : ℕ → List ℚ → List ℚ
  | _, [] => []
  | k, a :: as => f k a :: mapFrom f (k + 1) as

/-- The singularity threshold `1e-12` of the solver. -/
def eps : ℚ := 1 / 10 ^ 12

/-- Python's `max(range(i, n), key=lambda r: abs(M[r][i]))`: the first row
index in `[i, n)` whose column-`i` entry has the largest absolute value. -/
def pivotIdx (M : List (List ℚ)) (i n : ℕ) : ℕ :=
  (List.range' (i + 1) (n - (i + 1))).foldl
    (fun best r => if |mget M best i| < |mget M r i| then r else best) i

/-- Python's `M[i], M[k] = M[k], M[i]`. -/
def swapRows (M : List (List ℚ)) (i k : ℕ) : List (List ℚ) :=
  (M.set i (M.getD k [])).set k (M.getD i [])

/-- Python's `for j in range(i, n + 1): M[i][j] /= pivot` on one row. -/
def scaleRowFrom (row : List ℚ) (i : ℕ) (p : ℚ) : List ℚ :=
  mapFrom (fun j v => if j < i then v else v / p) 0 row

/-- Python's `for j in range(i, n + 1): M[r][j] -= factor * M[i][j]`
on one row, `rowI` being the pivot row. -/
def subRowFrom (rowR rowI : List ℚ) (i : ℕ) (f : ℚ) : List ℚ :=
  mapFrom (fun j v => if j < i then v else v - f * rowI.getD j 0) 0 rowR

/-- The elimination loop `for r in range(n): if r == i: continue; ...`. -/
def elimOthers (n i : ℕ) (M : List (List ℚ)) : List (List ℚ) :=
  (List.range n).foldl
    (fun Mc r =>
      if r = i then Mc
      else Mc.set r (subRowFrom (Mc.getD r []) (Mc.getD i []) i (mget Mc r i)))
    M

/-- One iteration of the Gauss-Jordan loop: partial pivoting, the
singularity check against `1e-12`, row normalisation, and elimination. -/
def gjStep (n : ℕ) (M : List (List ℚ)) (i : ℕ) : Except String (List (List ℚ)) :=
  let M1 := swapRows M i (pivotIdx M i n)
  let p := mget M1 i i
  if |p| < eps then Except.error "Singular matrix"
  else Except.ok (elimOthers n i (M1.set i (scaleRowFrom (M1.getD i []) i p)))

/-- The augmented matrix `[row + [b_val] for row, b_val in zip(A, b)]`. -/
def augmentM (A : List (List ℚ)) (b : List ℚ) : List (List ℚ) :=
  (A.zip b).map (fun rb => rb.1 ++ [rb.2])

/-- `solve_linear_system` from `power_grid_sim.py`: Gauss-Jordan elimination
with partial pivoting on the augmented matrix; raising `ValueError("Singular
matrix")` is embedded as `Except.error "Singular matrix"`, and the returned
solution reads off the last entry `M[i][-1]` of each row. -/
def solve_linear_system (A : List (List ℚ)) (b : List ℚ) : Except String (List ℚ) :=
  let n := A.length
  ((List.range n).foldlM (gjStep n) (augmentM A b)).map
    (fun M => (List.range n).map (fun i => (M.getD i []).getLastD 0))

/-- `dc_power_flow` from `power_grid_sim.py`: dimension check, susceptance
matrix, slack-bus reduction (drop row and column 0, drop injection 0),
solve, prepend the slack angle `0.0`, and annotate each input line with its
flow `(angles[i] - angles[j]) / x`. -/
def dc_power_flow (num_nodes : ℕ) (lines : List (ℕ × ℕ × ℚ)) (injections : List ℚ) :
    Except String (List ℚ × List (ℕ × ℕ × ℚ)) :=
  if injections.length ≠ num_nodes then
    Except.error "Mismatch between number of buses and injections"
  else
    let B := build_b_matrix num_nodes lines
    let Bred := (B.drop 1).map (fun row => row.drop 1)
    let Pred := injections.drop 1
    (solve_linear_system Bred Pred).map
      (fun angles_unknown =>
        let angles := 0 :: angles_unknown
        (angles, lines.map (fun l => (l.1, l.2.1, (angles.getD l.1 0 - angles.getD l.2.1 0) / l.2.2))))

/-! ### Basic list-indexing lemmas -/

theorem getD_set {α : Type} (l : List α) (i j : ℕ) (a d : α) :
    (l.set i a).getD j d = if i = j ∧ j < l.length then a else l.getD j d := by
  simp only [List.getD_eq_getElem?_getD, List.getElem?_set]
  by_cases hij : i = j
  · subst hij
    by_cases hi : i < l.length
    · simp [hi]
    · simp [hi, List.getElem?_eq_none (Nat.le_of_not_lt hi)]
  · simp [hij]

theorem getD_replicate {α : Type} (n i : ℕ) (a d : α) :
    (List.replicate n a).getD i d = if i < n then a else d := by
  simp only [List.getD_eq_getElem?_getD, List.getElem?_replicate]
  by_cases h : i < n <;> simp [h]

theorem getD_map_rows (f : List ℚ → List ℚ) (M : List (List ℚ)) (r : ℕ) (hr : r < M.length) :
    (M.map f).getD r [] = f (M.getD r []) := by
  simp [List.getD_eq_getElem?_getD, List.getElem?_map, List.getElem?_eq_getElem hr]

theorem getD_drop {α : Type} (l : List α) (k i : ℕ) (d : α) :
    (l.drop k).getD i d = l.getD (k + i) d := by
  simp [List.getD_eq_getElem?_getD, List.getElem?_drop]

theorem list_ext_getD {α : Type} (d : α) :
    ∀ (l₁ l₂ : List α), l₁.length = l₂.length →
      (∀ i, i < l₁.length → l₁.getD i d = l₂.getD i d) → l₁ = l₂
  | [], [], _, _ => rfl
  | [], _ :: _, hlen, _ => by simp at hlen
  | _ :: _, [], hlen, _ => by simp at hlen
  | a :: l₁, b :: l₂, hlen, h => by
    have h0 := h 0 (Nat.succ_pos _)
    simp only [List.getD_cons_zero] at h0
    subst h0
    have htail : l₁ = l₂ := by
      refine list_ext_getD d l₁ l₂ (by simpa using hlen) (fun i hi => ?_)
      have := h (i + 1) (by simpa using Nat.succ_lt_succ hi)
      simpa using this
    rw [htail]

/-! ### Shape and entries of the susceptance matrix -/

/-- `M` is an `N × N` matrix of rationals. -/
def MatN (N : ℕ) (M : List (List ℚ)) : Prop :=
  M.length = N ∧ ∀ r, r < N → (M.getD r []).length = N

theorem maddAt_matN {N : ℕ} {M : List (List ℚ)} (h : MatN N M) (r c : ℕ) (v : ℚ) :
    MatN N (maddAt M r c v) := by
  obtain ⟨hlen, hrow⟩ := h
  refine ⟨by simp [maddAt, hlen], fun r' hr' => ?_⟩
  rw [maddAt, getD_set]
  by_cases hrr : r = r' ∧ r' < M.length
  · rw [if_pos hrr, List.length_set, hrr.1]; exact hrow r' hr'
  · rw [if_neg hrr]; exact hrow r' hr'

theorem mget_maddAt {N : ℕ} {M : List (List ℚ)} (h : MatN N M) (r c : ℕ) (v : ℚ) (i j : ℕ) :
    mget (maddAt M r c v) i j
      = mget M i j + if r = i ∧ c = j ∧ i < N ∧ j < N then v else 0 := by
  obtain ⟨hlen, hrow⟩ := h
  unfold maddAt mget
  rw [getD_set]
  by_cases hri : r = i ∧ i < M.length
  · rw [if_pos hri]
    obtain ⟨hri', hi⟩ := hri
    subst hri'
    rw [getD_set, hrow r (hlen ▸ hi)]
    by_cases hcj : c = j ∧ j < N
    · rw [if_pos hcj, if_pos ⟨rfl, hcj.1, hlen ▸ hi, hcj.2⟩, hcj.1]
    · rw [if_neg hcj, if_neg (by rintro ⟨-, h1, -, h2⟩; exact hcj ⟨h1, h2⟩), add_zero]
  · rw [if_neg hri, if_neg (by rintro ⟨h1, -, h2, -⟩; exact hri ⟨h1, by omega⟩), add_zero]

/-- The exact contribution of one line `l` to entry `(i, j)` of the
susceptance matrix built for `N` buses. -/
def lineContrib (N i j : ℕ) (l : ℕ × ℕ × ℚ) : ℚ :=
  if i < N ∧ j < N then
    (if l.1 = i ∧ l.1 = j then 1 / l.2.2 else 0)
      + (if l.2.1 = i ∧ l.2.1 = j then 1 / l.2.2 else 0)
      - (if l.1 = i ∧ l.2.1 = j then 1 / l.2.2 else 0)
      - (if l.2.1 = i ∧ l.1 = j then 1 / l.2.2 else 0)
  else 0

theorem addLine_matN {N : ℕ} {B : List (List ℚ)} (h : MatN N B) (l : ℕ × ℕ × ℚ) :
    MatN N (addLine B l) :=
  maddAt_matN (maddAt_matN (maddAt_matN (maddAt_matN h _ _ _) _ _ _) _ _ _) _ _ _

theorem mget_addLine {N : ℕ} {B : List (List ℚ)} (h : MatN N B) (l : ℕ × ℕ × ℚ) (i j : ℕ) :
    mget (addLine B l) i j = mget B i j + lineContrib N i j l := by
  have h1 := maddAt_matN h l.1 l.1 (1 / l.2.2)
  have h2 := maddAt_matN h1 l.2.1 l.2.1 (1 / l.2.2)
  have h3 := maddAt_matN h2 l.1 l.2.1 (-(1 / l.2.2))
  rw [addLine, mget_maddAt h3, mget_maddAt h2, mget_maddAt h1, mget_maddAt h]
  by_cases hij : i < N ∧ j < N
  · simp only [lineContrib, if_pos hij, hij.1, hij.2, and_true]
    split_ifs <;> ring
  · simp only [lineContrib, if_neg hij]
    rw [if_neg (by tauto), if_neg (by tauto), if_neg (by tauto), if_neg (by tauto)]
    ring

theorem foldl_addLine_matN {N : ℕ} :
    ∀ (L : List (ℕ × ℕ × ℚ)) (B), MatN N B → MatN N (L.foldl addLine B)
  | [], _, h => h
  | l :: L, B, h => foldl_addLine_matN L _ (addLine_matN h l)

theorem mget_foldl_addLine {N : ℕ} :
    ∀ (L : List (ℕ × ℕ × ℚ)) (B), MatN N B → ∀ i j,
      mget (L.foldl addLine B) i j = mget B i j + (L.map (lineContrib N i j)).sum
  | [], B, _, i, j => by simp
  | l :: L, B, h, i, j => by
    rw [List.foldl_cons, mget_foldl_addLine L _ (addLine_matN h l) i j,
      mget_addLine h, List.map_cons, List.sum_cons]
    ring

theorem zeroMat_matN (N : ℕ) : MatN N (List.replicate N (List.replicate N (0 : ℚ))) := by
  refine ⟨List.length_replicate .., fun r hr => ?_⟩
  rw [getD_replicate, if_pos hr, List.length_replicate]

theorem mget_zeroMat (N i j : ℕ) :
    mget (List.replicate N (List.replicate N (0 : ℚ))) i j = 0 := by
  unfold mget
  rw [getD_replicate]
  by_cases hi : i < N
  · rw [if_pos hi, getD_replicate]
    by_cases hj : j < N <;> simp [hj]
  · rw [if_neg hi, List.getD_nil]

theorem build_matN (N : ℕ) (L : List (ℕ × ℕ × ℚ)) : MatN N (build_b_matrix N L) :=
  foldl_addLine_matN L _ (zeroMat_matN N)

/-- Closed form for the entries of the built susceptance matrix. -/
theorem mget_build (N : ℕ) (L : List (ℕ × ℕ × ℚ)) (i j : ℕ) :
    mget (build_b_matrix N L) i j = (L.map (lineContrib N i j)).sum := by
  rw [build_b_matrix, mget_foldl_addLine L _ (zeroMat_matN N) i j, mget_zeroMat, zero_add]

/-! ### Symmetry, spec-side entry formulas, row sums and singularity -/

theorem lineContrib_symm (N i j : ℕ) (l : ℕ × ℕ × ℚ) :
    lineContrib N i j l = lineContrib N j i l := by
  unfold lineContrib
  by_cases hij : i < N ∧ j < N
  · rw [if_pos hij, if_pos (show j < N ∧ i < N from ⟨hij.2, hij.1⟩)]
    split_ifs <;> first | rfl | ring1 | (exfalso; omega)
  · rw [if_neg hij, if_neg (by tauto)]

/-- Symmetry of the built matrix, with no validity assumption at all. -/
theorem build_symm (N : ℕ) (L : List (ℕ × ℕ × ℚ)) (i j : ℕ) :
    mget (build_b_matrix N L) i j = mget (build_b_matrix N L) j i := by
  rw [mget_build, mget_build]
  exact congrArg List.sum (List.map_congr_left (fun l _ => lineContrib_symm N i j l))

/-- `l` touches bus `i` (is incident to it). Spec-side notion. -/
def touches (i : ℕ) (l : ℕ × ℕ × ℚ) : Bool :=
  l.1 == i || l.2.1 == i

/-- Modelled from the spec: `B[i][i]` should be the sum of `1/x` over all
lines touching bus `i`. -/
def diagSpec (L : List (ℕ × ℕ × ℚ)) (i : ℕ) : ℚ :=
  ((L.filter (touches i)).map (fun l => 1 / l.2.2)).sum

/-- `l` connects buses `i` and `j` (in either direction). Spec-side notion. -/
def connects (i j : ℕ) (l : ℕ × ℕ × ℚ) : Bool :=
  (l.1 == i && l.2.1 == j) || (l.1 == j && l.2.1 == i)

/-- Modelled from the spec: `B[i][j]` for `i ≠ j` should be minus the sum of
`1/x` over all lines connecting `i` and `j`. -/
def offSpec (L : List (ℕ × ℕ × ℚ)) (i j : ℕ) : ℚ :=
  -((L.filter (connects i j)).map (fun l => 1 / l.2.2)).sum

theorem lineContrib_diag {N i : ℕ} (hi : i < N) {l : ℕ × ℕ × ℚ}
    (h1 : l.1 < N) (h2 : l.2.1 < N) (hne : l.1 ≠ l.2.1) :
    lineContrib N i i l = if touches i l then 1 / l.2.2 else 0 := by
  unfold lineContrib touches
  rw [if_pos ⟨hi, hi⟩]
  by_cases ha : l.1 = i <;> by_cases hb : l.2.1 = i
  · exact absurd (ha.trans hb.symm) hne
  · simp [ha, hb]
  · simp [ha, hb]
  · simp [ha, hb]

theorem lineContrib_off {N i j : ℕ} (hi : i < N) (hj : j < N) (hij : i ≠ j) (l : ℕ × ℕ × ℚ) :
    lineContrib N i j l = -(if connects i j l then 1 / l.2.2 else 0) := by
  unfold lineContrib connects
  rw [if_pos ⟨hi, hj⟩]
  simp only [Bool.or_eq_true, Bool.and_eq_true, beq_iff_eq]
  have hij' : ¬ i = j := hij
  split_ifs <;> first | rfl | ring1 | (exfalso; omega)

theorem sum_ite_filter (p : ℕ × ℕ × ℚ → Bool) (f : ℕ × ℕ × ℚ → ℚ) :
    ∀ L : List (ℕ × ℕ × ℚ),
      (L.map (fun l => if p l then f l else 0)).sum = ((L.filter p).map f).sum
  | [] => rfl
  | l :: L => by
    rw [List.map_cons, List.sum_cons, sum_ite_filter p f L, List.filter_cons]
    by_cases hp : p l <;> simp [hp]

theorem build_diag {N : ℕ} {L : List (ℕ × ℕ × ℚ)}
    (hv : ∀ l ∈ L, l.1 < N ∧ l.2.1 < N ∧ l.1 ≠ l.2.1) {i : ℕ} (hi : i < N) :
    mget (build_b_matrix N L) i i = diagSpec L i := by
  rw [mget_build, diagSpec, ← sum_ite_filter]
  refine congrArg List.sum (List.map_congr_left (fun l hl => ?_))
  obtain ⟨h1, h2, h3⟩ := hv l hl
  exact lineContrib_diag hi h1 h2 h3

theorem build_off {N : ℕ} (L : List (ℕ × ℕ × ℚ)) {i j : ℕ}
    (hi : i < N) (hj : j < N) (hij : i ≠ j) :
    mget (build_b_matrix N L) i j = offSpec L i j := by
  rw [mget_build, offSpec, ← sum_ite_filter]
  have negsum : ∀ q : List ℚ, -q.sum = (q.map (fun v => -v)).sum := by
    intro q
    induction q with
    | nil => simp
    | cons a q ih => rw [List.map_cons, List.sum_cons, List.sum_cons, ← ih]; ring
  rw [negsum, List.map_map]
  exact congrArg List.sum (List.map_congr_left (fun l _ => lineContrib_off hi hj hij l))

theorem sum_guard (N : ℕ) (P : Prop) [Decidable P] {a : ℕ} (ha : a < N) (c : ℚ) :
    ∑ j ∈ Finset.range N, (if P ∧ a = j then c else 0) = if P then c else 0 := by
  by_cases hP : P
  · simp only [hP, true_and, if_true]
    rw [Finset.sum_ite_eq (Finset.range N) a (fun _ => c), if_pos (Finset.mem_range.mpr ha)]
  · simp [hP]

theorem sum_range_lineContrib {N i : ℕ} (hi : i < N) {l : ℕ × ℕ × ℚ}
    (h1 : l.1 < N) (h2 : l.2.1 < N) :
    ∑ j ∈ Finset.range N, lineContrib N i j l = 0 := by
  have expand : ∀ j ∈ Finset.range N, lineContrib N i j l
      = (if l.1 = i ∧ l.1 = j then 1 / l.2.2 else 0)
        + (if l.2.1 = i ∧ l.2.1 = j then 1 / l.2.2 else 0)
        - (if l.1 = i ∧ l.2.1 = j then 1 / l.2.2 else 0)
        - (if l.2.1 = i ∧ l.1 = j then 1 / l.2.2 else 0) := by
    intro j hj
    rw [Finset.mem_range] at hj
    unfold lineContrib
    rw [if_pos ⟨hi, hj⟩]
  rw [Finset.sum_congr rfl expand, Finset.sum_sub_distrib, Finset.sum_sub_distrib,
    Finset.sum_add_distrib, sum_guard N (l.1 = i) h1 (1 / l.2.2),
    sum_guard N (l.2.1 = i) h2 (1 / l.2.2), sum_guard N (l.1 = i) h2 (1 / l.2.2),
    sum_guard N (l.2.1 = i) h1 (1 / l.2.2)]
  split_ifs <;> ring1

/-- Each row of the built matrix sums to zero, given in-range bus indices. -/
theorem build_row_sum {N : ℕ} {L : List (ℕ × ℕ × ℚ)}
    (hv : ∀ l ∈ L, l.1 < N ∧ l.2.1 < N) {i : ℕ} (hi : i < N) :
    ∑ j ∈ Finset.range N, mget (build_b_matrix N L) i j = 0 := by
  have swap : ∀ L' : List (ℕ × ℕ × ℚ), (∀ l ∈ L', l.1 < N ∧ l.2.1 < N) →
      ∑ j ∈ Finset.range N, (L'.map (lineContrib N i j)).sum = 0 := by
    intro L' hv'
    induction L' with
    | nil => simp
    | cons l L' ih =>
      have hl := hv' l (List.mem_cons_self l L')
      simp only [List.map_cons, List.sum_cons, Finset.sum_add_distrib]
      rw [ih (fun m hm => hv' m (List.mem_cons_of_mem l hm)),
        sum_range_lineContrib hi hl.1 hl.2, add_zero]
  rw [Finset.sum_congr rfl (fun j _ => mget_build N L i j)]
  exact swap L hv

/-- The built matrix viewed as a Mathlib matrix over `Fin N`. -/
def toMatrixQ (M : List (List ℚ)) (N : ℕ) : Matrix (Fin N) (Fin N) ℚ :=
  Matrix.of (fun i j => mget M i j)

/-- With at least one bus, the full susceptance matrix is singular: the
all-ones vector is in its kernel, so its determinant vanishes. -/
theorem build_det_zero {N : ℕ} {L : List (ℕ × ℕ × ℚ)}
    (hv : ∀ l ∈ L, l.1 < N ∧ l.2.1 < N) (hN : 1 ≤ N) :
    (toMatrixQ (build_b_matrix N L) N).det = 0 := by
  rw [← Matrix.exists_mulVec_eq_zero_iff]
  refine ⟨fun _ => 1, ?_, ?_⟩
  · intro h
    have := congrFun h ⟨0, hN⟩
    simp at this
  · funext i
    show ∑ j : Fin N, mget (build_b_matrix N L) i j * 1 = 0
    calc ∑ j : Fin N, mget (build_b_matrix N L) i j * 1
        = ∑ j ∈ Finset.range N, mget (build_b_matrix N L) i j * 1 := by
          exact Fin.sum_univ_eq_sum_range (fun j => mget (build_b_matrix N L) i j * 1) N
      _ = 0 := by
          simp only [mul_one]
          exact build_row_sum hv i.isLt

/-! ### Claims C2, C7, C8 about the Matrix Builder -/

/-- C2 (as stated) is refuted by a self-loop line, which the claim's
preconditions (indices in `[0, N)`, nonzero reactance) do not exclude: for
the single line `(0, 0, 1)` the code nets `0` on the diagonal entry
`B[0][0]`, while the sum of `1/x` over the lines touching bus `0` is `1`. -/
theorem C2_counterexample :
    mget (build_b_matrix 1 [(0, 0, 1)]) 0 0 = 0 ∧ diagSpec [(0, 0, 1)] 0 = 1 ∧
      mget (build_b_matrix 1 [(0, 0, 1)]) 0 0 ≠ diagSpec [(0, 0, 1)] 0 := by
  with_unfolding_all decide

/-- C2 (amended): for every `num_nodes` and every line list whose bus
indices lie in `[0, N)`, whose reactances are nonzero, and which contains no
self-loops, the built matrix has `B[i][i]` equal to the sum of `1/x` over
lines touching bus `i`, `B[i][j]` for `i ≠ j` equal to minus the
(accumulated) sum of `1/x` over lines connecting `i` and `j`, and is
symmetric. -/
theorem C2_matrix_entries {N : ℕ} {L : List (ℕ × ℕ × ℚ)}
    (hv : ∀ l ∈ L, l.1 < N ∧ l.2.1 < N ∧ l.2.2 ≠ 0 ∧ l.1 ≠ l.2.1) :
    (∀ i, i < N → mget (build_b_matrix N L) i i = diagSpec L i) ∧
      (∀ i j, i < N → j < N → i ≠ j → mget (build_b_matrix N L) i j = offSpec L i j) ∧
      (∀ i j, mget (build_b_matrix N L) i j = mget (build_b_matrix N L) j i) := by
  refine ⟨fun i hi => ?_, fun i j hi hj hij => build_off L hi hj hij,
    fun i j => build_symm N L i j⟩
  exact build_diag (fun l hl => ⟨(hv l hl).1, (hv l hl).2.1, (hv l hl).2.2.2⟩) hi

/-- Witness for C2: a 3-bus network with a pair of parallel lines. -/
theorem C2_matrix_entries_witness :
    mget (build_b_matrix 3 [(0, 1, 2), (1, 2, 4), (0, 1, 5)]) 1 1
        = diagSpec [(0, 1, 2), (1, 2, 4), (0, 1, 5)] 1 ∧
      mget (build_b_matrix 3 [(0, 1, 2), (1, 2, 4), (0, 1, 5)]) 0 1
        = offSpec [(0, 1, 2), (1, 2, 4), (0, 1, 5)] 0 1 ∧
      mget (build_b_matrix 3 [(0, 1, 2), (1, 2, 4), (0, 1, 5)]) 0 2
        = mget (build_b_matrix 3 [(0, 1, 2), (1, 2, 4), (0, 1, 5)]) 2 0 := by
  have h := C2_matrix_entries (L := [(0, 1, 2), (1, 2, 4), (0, 1, 5)]) (N := 3) (by decide)
  exact ⟨h.1 1 (by decide), h.2.1 0 1 (by decide) (by decide) (by decide), h.2.2 0 2⟩

/-- C7 (as stated) fails in the degenerate case `N = 0`: every row of the
empty matrix vacuously sums to zero, yet the `0 × 0` matrix is not singular
(its determinant is `1`). -/
theorem C7_counterexample :
    (∀ i, i < 0 → ∑ j ∈ Finset.range 0, mget (build_b_matrix 0 []) i j = 0) ∧
      (toMatrixQ (build_b_matrix 0 []) 0).det ≠ 0 := by
  refine ⟨fun i hi => absurd hi (Nat.not_lt_zero i), ?_⟩
  rw [Matrix.det_fin_zero]
  exact one_ne_zero

/-- C7 (amended): for every valid line list (indices in range, nonzero
reactances, no self-loops) every row of the built matrix sums to `0`
exactly, and — provided there is at least one bus (`1 ≤ N`; the `0 × 0`
matrix has determinant `1`) — the full `N × N` matrix is singular. -/
theorem C7_row_sum_zero_singular {N : ℕ} {L : List (ℕ × ℕ × ℚ)}
    (hv : ∀ l ∈ L, l.1 < N ∧ l.2.1 < N ∧ l.2.2 ≠ 0 ∧ l.1 ≠ l.2.1) (hN : 1 ≤ N) :
    (∀ i, i < N → ∑ j ∈ Finset.range N, mget (build_b_matrix N L) i j = 0) ∧
      (toMatrixQ (build_b_matrix N L) N).det = 0 := by
  have hv' : ∀ l ∈ L, l.1 < N ∧ l.2.1 < N := fun l hl => ⟨(hv l hl).1, (hv l hl).2.1⟩
  exact ⟨fun i hi => build_row_sum hv' hi, build_det_zero hv' hN⟩

/-- Witness for C7: a connected 2-bus network. -/
theorem C7_row_sum_zero_singular_witness :
    (∀ i, i < 2 → ∑ j ∈ Finset.range 2, mget (build_b_matrix 2 [(0, 1, 1)]) i j = 0) ∧
      (toMatrixQ (build_b_matrix 2 [(0, 1, 1)]) 2).det = 0 :=
  C7_row_sum_zero_singular (by decide) (by decide)

/-- C8: `build_b_matrix` is invariant under permutation of the line list —
stated for arbitrary line lists (validity is not even needed, since addition
of each line's contribution commutes). -/
theorem C8_perm_invariant (N : ℕ) (L L' : List (ℕ × ℕ × ℚ)) (h : L.Perm L') :
    build_b_matrix N L = build_b_matrix N L' := by
  have s1 := build_matN N L
  have s2 := build_matN N L'
  refine list_ext_getD [] _ _ (s1.1.trans s2.1.symm) (fun r hr => ?_)
  have hrN : r < N := s1.1 ▸ hr
  refine list_ext_getD 0 _ _ ((s1.2 r hrN).trans (s2.2 r hrN).symm) (fun c hc => ?_)
  have hentry : ∀ L0 : List (ℕ × ℕ × ℚ),
      ((build_b_matrix N L0).getD r []).getD c 0 = mget (build_b_matrix N L0) r c :=
    fun _ => rfl
  rw [hentry L, hentry L', mget_build, mget_build]
  exact (h.map (lineContrib N r c)).sum_eq

/-- Witness for C8 at a concrete transposition of a 2-line list. -/
theorem C8_perm_invariant_witness :
    build_b_matrix 3 [(0, 1, 2), (1, 2, 3)] = build_b_matrix 3 [(1, 2, 3), (0, 1, 2)] :=
  C8_perm_invariant 3 _ _ (by decide)

/-! ### Semantics of the Gauss-Jordan solver -/

/-- The linear equation encoded by one augmented row (`n` unknowns). -/
def eqnRow (row y : List ℚ) (n : ℕ) : Prop :=
  (∑ j ∈ Finset.range n, row.getD j 0 * y.getD j 0) = row.getD n 0

/-- `y` satisfies every equation of the augmented matrix `M` (`n` rows). -/
def isSol (M : List (List ℚ)) (n : ℕ) (y : List ℚ) : Prop :=
  ∀ r, r < n → eqnRow (M.getD r []) y n

/-- Shape of a working augmented matrix: `n` rows of length `n + 1`. -/
def AugN (n : ℕ) (M : List (List ℚ)) : Prop :=
  M.length = n ∧ ∀ r, r < n → (M.getD r []).length = n + 1

/-- Columns `0 .. k-1` of `M` are the corresponding unit columns. -/
def UnitCols (k n : ℕ) (M : List (List ℚ)) : Prop :=
  ∀ c, c < k → ∀ r, r < n → mget M r c = if r = c then 1 else 0

/-- Matrix-vector product over lists (row-by-row dot products). -/
def matVec (A : List (List ℚ)) (y : List ℚ) : List ℚ :=
  A.map (fun row => ∑ j ∈ Finset.range row.length, row.getD j 0 * y.getD j 0)

/-- Component-wise sum of two vectors. -/
def vecAdd (u v : List ℚ) : List ℚ :=
  List.zipWith (fun a b => a + b) u v

/-- The largest absolute value in column `i` among rows `i .. n-1`. -/
def colMaxAbs (M : List (List ℚ)) (i n : ℕ) : ℚ :=
  ((List.range' i (n - i)).map (fun r => |mget M r i|)).foldl max 0

theorem length_mapFrom (f : ℕ → ℚ → ℚ) : ∀ (k : ℕ) (l : List ℚ),
    (mapFrom f k l).length = l.length
  | _, [] => rfl
  | k, _ :: as => by simp [mapFrom, length_mapFrom f (k + 1) as]

theorem getD_mapFrom (f : ℕ → ℚ → ℚ) : ∀ (k : ℕ) (l : List ℚ) (j : ℕ), j < l.length →
    (mapFrom f k l).getD j 0 = f (k + j) (l.getD j 0)
  | _, [], j, hj => by simp at hj
  | k, a :: as, 0, _ => by simp [mapFrom]
  | k, a :: as, j + 1, hj => by
    have := getD_mapFrom f (k + 1) as j (by simpa using hj)
    simpa [mapFrom, Nat.add_assoc, Nat.add_comm 1 j] using this

theorem length_swapRows (M : List (List ℚ)) (i k : ℕ) :
    (swapRows M i k).length = M.length := by
  simp [swapRows]

theorem getD_swapRows (M : List (List ℚ)) (i k : ℕ) (hi : i < M.length) (hk : k < M.length)
    (r : ℕ) :
    (swapRows M i k).getD r []
      = M.getD (if r = k then i else if r = i then k else r) [] := by
  unfold swapRows
  rw [getD_set, getD_set]
  by_cases hrk : r = k
  · rw [if_pos ⟨hrk.symm, by simpa [hrk] using hk⟩, if_pos hrk]
  · rw [if_neg (fun hc => hrk hc.1.symm), if_neg hrk]
    by_cases hri : r = i
    · rw [if_pos ⟨hri.symm, by simpa [hri] using hi⟩, if_pos hri]
    · rw [if_neg (fun hc => hri hc.1.symm), if_neg hri]

/-- The generic "keep the first strictly larger element" fold computes an
element whose key is the running maximum of the keys. -/
theorem foldl_pick_max (g : ℕ → ℚ) : ∀ (rs : List ℕ) (b : ℕ),
    |g (rs.foldl (fun best r => if |g best| < |g r| then r else best) b)|
      = (rs.map (fun r => |g r|)).foldl max |g b|
  | [], _ => rfl
  | r :: rs, b => by
    rw [List.foldl_cons, List.map_cons, List.foldl_cons]
    by_cases h : |g b| < |g r|
    · rw [if_pos h, foldl_pick_max g rs r, max_eq_right (le_of_lt h)]
    · rw [if_neg h, foldl_pick_max g rs b, max_eq_left (le_of_not_lt h)]

theorem foldl_pick_mem (g : ℕ → ℚ) : ∀ (rs : List ℕ) (b : ℕ),
    rs.foldl (fun best r => if |g best| < |g r| then r else best) b = b
      ∨ rs.foldl (fun best r => if |g best| < |g r| then r else best) b ∈ rs
  | [], _ => Or.inl rfl
  | r :: rs, b => by
    rw [List.foldl_cons]
    by_cases h : |g b| < |g r|
    · rw [if_pos h]
      rcases foldl_pick_mem g rs r with h' | h'
      · exact Or.inr (by rw [h']; exact List.mem_cons_self r rs)
      · exact Or.inr (List.mem_cons_of_mem r h')
    · rw [if_neg h]
      rcases foldl_pick_mem g rs b with h' | h'
      · exact Or.inl h'
      · exact Or.inr (List.mem_cons_of_mem r h')

theorem pivotIdx_bounds {M : List (List ℚ)} {i n : ℕ} (hi : i < n) :
    i ≤ pivotIdx M i n ∧ pivotIdx M i n < n := by
  unfold pivotIdx
  rcases foldl_pick_mem (fun r => mget M r i) (List.range' (i + 1) (n - (i + 1))) i with h | h
  · rw [h]; exact ⟨le_refl i, hi⟩
  · rw [List.mem_range'_1] at h
    omega

theorem pivot_abs_eq_colMaxAbs (M : List (List ℚ)) {i n : ℕ} (hi : i < n) :
    |mget M (pivotIdx M i n) i| = colMaxAbs M i n := by
  unfold pivotIdx colMaxAbs
  rw [show n - i = (n - (i + 1)) + 1 from by omega, List.range'_succ, List.map_cons,
    List.foldl_cons, max_eq_right (abs_nonneg (mget M i i))]
  exact foldl_pick_max (fun r => mget M r i) (List.range' (i + 1) (n - (i + 1))) i

theorem swap_augN {n : ℕ} {M : List (List ℚ)} (h : AugN n M) {i k : ℕ}
    (hi : i < n) (hk : k < n) : AugN n (swapRows M i k) := by
  obtain ⟨hlen, hrow⟩ := h
  refine ⟨(length_swapRows M i k).trans hlen, fun r hr => ?_⟩
  rw [getD_swapRows M i k (hlen ▸ hi) (hlen ▸ hk) r]
  split_ifs <;> [exact hrow i hi; exact hrow k hk; exact hrow r hr]

theorem swap_isSol {n : ℕ} {M : List (List ℚ)} (h : AugN n M) {i k : ℕ}
    (hi : i < n) (hk : k < n) (y : List ℚ) :
    isSol (swapRows M i k) n y ↔ isSol M n y := by
  have hlen := h.1
  constructor
  · intro hs r hr
    by_cases hri : r = i
    · have := hs k hk
      rw [getD_swapRows M i k (hlen ▸ hi) (hlen ▸ hk) k, if_pos rfl] at this
      rwa [hri]
    · by_cases hrk : r = k
      · have := hs i hi
        have hik : ¬ i = k := fun hc => hri (hrk.trans hc.symm)
        rw [getD_swapRows M i k (hlen ▸ hi) (hlen ▸ hk) i, if_neg hik, if_pos rfl] at this
        rwa [hrk]
      · have := hs r hr
        rwa [getD_swapRows M i k (hlen ▸ hi) (hlen ▸ hk) r, if_neg hrk, if_neg hri] at this
  · intro hs r hr
    rw [getD_swapRows M i k (hlen ▸ hi) (hlen ▸ hk) r]
    split_ifs <;> [exact hs i hi; exact hs k hk; exact hs r hr]

theorem swap_unitCols {m n : ℕ} {M : List (List ℚ)} (h : AugN n M) (hU : UnitCols m n M)
    {i k : ℕ} (hi : i < n) (hk : k < n) (hmi : m ≤ i) (hmk : m ≤ k) :
    UnitCols m n (swapRows M i k) := by
  intro c hc r hr
  unfold mget
  rw [getD_swapRows M i k (h.1 ▸ hi) (h.1 ▸ hk) r]
  by_cases hrk : r = k
  · rw [if_pos hrk]
    have := hU c hc i hi
    unfold mget at this
    rw [this, if_neg (by omega), if_neg (by omega)]
  · rw [if_neg hrk]
    by_cases hri : r = i
    · rw [if_pos hri]
      have := hU c hc k hk
      unfold mget at this
      rw [this, if_neg (by omega), if_neg (by omega)]
    · rw [if_neg hri]
      exact hU c hc r hr

theorem length_scaleRowFrom (row : List ℚ) (i : ℕ) (p : ℚ) :
    (scaleRowFrom row i p).length = row.length :=
  length_mapFrom _ 0 row

theorem getD_scaleRowFrom {row : List ℚ} {i : ℕ} {p : ℚ}
    (hz : ∀ c, c < i → row.getD c 0 = 0) {j : ℕ} (hj : j < row.length) :
    (scaleRowFrom row i p).getD j 0 = row.getD j 0 / p := by
  rw [scaleRowFrom, getD_mapFrom _ 0 row j hj, Nat.zero_add]
  by_cases hji : j < i
  · rw [if_pos hji, hz j hji, zero_div]
  · rw [if_neg hji]

theorem length_subRowFrom (rowR rowI : List ℚ) (i : ℕ) (f : ℚ) :
    (subRowFrom rowR rowI i f).length = rowR.length :=
  length_mapFrom _ 0 rowR

theorem getD_subRowFrom {rowR rowI : List ℚ} {i : ℕ} {f : ℚ}
    (hzI : ∀ c, c < i → rowI.getD c 0 = 0) {j : ℕ} (hj : j < rowR.length) :
    (subRowFrom rowR rowI i f).getD j 0 = rowR.getD j 0 - f * rowI.getD j 0 := by
  rw [subRowFrom, getD_mapFrom _ 0 rowR j hj, Nat.zero_add]
  by_cases hji : j < i
  · rw [if_pos hji, hzI j hji, mul_zero, sub_zero]
  · rw [if_neg hji]

theorem eqn_scaleRow_iff {row y : List ℚ} {n i : ℕ} {p : ℚ} (hp : p ≠ 0)
    (hlen : row.length = n + 1) (hz : ∀ c, c < i → row.getD c 0 = 0) :
    eqnRow (scaleRowFrom row i p) y n ↔ eqnRow row y n := by
  unfold eqnRow
  have hget : ∀ j, j < n + 1 → (scaleRowFrom row i p).getD j 0 = row.getD j 0 / p :=
    fun j hj => getD_scaleRowFrom hz (hlen ▸ hj)
  have hsum : (∑ j ∈ Finset.range n, (scaleRowFrom row i p).getD j 0 * y.getD j 0)
      = (∑ j ∈ Finset.range n, row.getD j 0 * y.getD j 0) / p := by
    rw [Finset.sum_div]
    refine Finset.sum_congr rfl (fun j hj => ?_)
    rw [hget j (Nat.lt_succ_of_lt (Finset.mem_range.mp hj))]
    ring
  rw [hsum, hget n (Nat.lt_succ_self n)]
  constructor
  · intro h
    have := congrArg (fun z => z * p) h
    simpa [div_mul_cancel₀ _ hp] using this
  · intro h
    rw [h]

theorem eqn_subRow_iff {rowR rowI y : List ℚ} {n i : ℕ} {f : ℚ}
    (hlenR : rowR.length = n + 1) (hzI : ∀ c, c < i → rowI.getD c 0 = 0)
    (hI : eqnRow rowI y n) :
    eqnRow (subRowFrom rowR rowI i f) y n ↔ eqnRow rowR y n := by
  unfold eqnRow at hI ⊢
  have hget : ∀ j, j < n + 1 → (subRowFrom rowR rowI i f).getD j 0
      = rowR.getD j 0 - f * rowI.getD j 0 := fun j hj => getD_subRowFrom hzI (hlenR ▸ hj)
  have hsum : (∑ j ∈ Finset.range n, (subRowFrom rowR rowI i f).getD j 0 * y.getD j 0)
      = (∑ j ∈ Finset.range n, rowR.getD j 0 * y.getD j 0)
        - f * (∑ j ∈ Finset.range n, rowI.getD j 0 * y.getD j 0) := by
    rw [Finset.mul_sum, ← Finset.sum_sub_distrib]
    refine Finset.sum_congr rfl (fun j hj => ?_)
    rw [hget j (Nat.lt_succ_of_lt (Finset.mem_range.mp hj))]
    ring
  rw [hsum, hget n (Nat.lt_succ_self n), hI]
  constructor
  · intro h
    linarith
  · intro h
    rw [h]

theorem isSol_set_iff {n : ℕ} {M : List (List ℚ)} (hlen : M.length = n) {i : ℕ} (hi : i < n)
    {row' y : List ℚ} (hrow : eqnRow row' y n ↔ eqnRow (M.getD i []) y n) :
    isSol (M.set i row') n y ↔ isSol M n y := by
  constructor <;> intro hs r hr
  · by_cases hri : r = i
    · have := hs i hi
      rw [getD_set, if_pos ⟨rfl, hlen ▸ hi⟩] at this
      rw [hri]
      exact hrow.mp this
    · have := hs r hr
      rwa [getD_set, if_neg (fun hc => hri hc.1.symm)] at this
  · rw [getD_set]
    by_cases hri : i = r ∧ r < M.length
    · rw [if_pos hri]
      exact hrow.mpr (hri.1 ▸ hs i hi)
    · rw [if_neg hri]
      exact hs r hr

theorem elimOthers_spec {n i : ℕ} {M : List (List ℚ)} (hlen : M.length = n) :
    (elimOthers n i M).length = n ∧
      ∀ r, (elimOthers n i M).getD r []
        = if r < n ∧ r ≠ i then subRowFrom (M.getD r []) (M.getD i []) i (mget M r i)
          else M.getD r [] := by
  suffices h : ∀ m, m ≤ n →
      ((List.range m).foldl (fun Mc r =>
          if r = i then Mc
          else Mc.set r (subRowFrom (Mc.getD r []) (Mc.getD i []) i (mget Mc r i))) M).length
        = n ∧
      ∀ r, ((List.range m).foldl (fun Mc r =>
          if r = i then Mc
          else Mc.set r (subRowFrom (Mc.getD r []) (Mc.getD i []) i (mget Mc r i))) M).getD r []
        = if r < m ∧ r ≠ i then subRowFrom (M.getD r []) (M.getD i []) i (mget M r i)
          else M.getD r [] by
    exact h n (le_refl n)
  intro m
  induction m with
  | zero => intro _; simp [hlen]
  | succ m ih =>
    intro hm
    obtain ⟨ihlen, ihget⟩ := ih (Nat.le_of_succ_le hm)
    rw [List.range_succ, List.foldl_append, List.foldl_cons, List.foldl_nil]
    have hFm : ∀ r, ¬ (r < m ∧ r ≠ i) →
        ((List.range m).foldl (fun Mc r =>
          if r = i then Mc
          else Mc.set r (subRowFrom (Mc.getD r []) (Mc.getD i []) i (mget Mc r i))) M).getD r []
          = M.getD r [] := by
      intro r hr
      rw [ihget r, if_neg hr]
    have hgm : ((List.range m).foldl (fun Mc r =>
        if r = i then Mc
        else Mc.set r (subRowFrom (Mc.getD r []) (Mc.getD i []) i (mget Mc r i))) M).getD m []
        = M.getD m [] := hFm m (by omega)
    have hgi : ((List.range m).foldl (fun Mc r =>
        if r = i then Mc
        else Mc.set r (subRowFrom (Mc.getD r []) (Mc.getD i []) i (mget Mc r i))) M).getD i []
        = M.getD i [] := hFm i (by omega)
    by_cases hmi : m = i
    · rw [if_pos hmi]
      refine ⟨ihlen, fun r => ?_⟩
      rw [ihget r]
      by_cases hcond : r < m ∧ r ≠ i
      · rw [if_pos hcond, if_pos ⟨by omega, hcond.2⟩]
      · rw [if_neg hcond, if_neg (by omega)]
    · rw [if_neg hmi]
      constructor
      · rw [List.length_set, ihlen]
      · intro r
        rw [getD_set]
        by_cases hrm : m = r ∧ r < ((List.range m).foldl (fun Mc r =>
            if r = i then Mc
            else Mc.set r (subRowFrom (Mc.getD r []) (Mc.getD i []) i (mget Mc r i))) M).length
        · rw [if_pos hrm, ← hrm.1, if_pos ⟨Nat.lt_succ_self m, hmi⟩, hgm, hgi]
          exact congrArg (subRowFrom (M.getD m []) (M.getD i []) i)
            (congrArg (fun row : List ℚ => row.getD i 0) hgm)
        · rw [if_neg hrm, ihget r]
          rw [ihlen] at hrm
          by_cases hcond : r < m ∧ r ≠ i
          · rw [if_pos hcond, if_pos ⟨by omega, hcond.2⟩]
          · rw [if_neg hcond, if_neg (by
              rintro ⟨h1, h2⟩
              rcases Nat.lt_succ_iff_lt_or_eq.mp h1 with h3 | h3
              · exact hcond ⟨h3, h2⟩
              · exact hrm ⟨h3.symm, by omega⟩)]

theorem gjStep_ok_inv {n i : ℕ} {M M' : List (List ℚ)} (hi : i < n)
    (hA : AugN n M) (hU : UnitCols i n M) (hok : gjStep n M i = Except.ok M') :
    AugN n M' ∧ UnitCols (i + 1) n M' ∧ ∀ y, isSol M' n y ↔ isSol M n y := by
  obtain ⟨hik, hkn⟩ := pivotIdx_bounds (M := M) hi
  simp only [gjStep] at hok
  set K := pivotIdx M i n with hK
  set M1 := swapRows M i K with hM1
  set p := mget M1 i i with hpdef
  set row2 := scaleRowFrom (M1.getD i []) i p with hrow2def
  set M2 := M1.set i row2 with hM2
  by_cases hplt : |p| < eps
  · rw [if_pos hplt] at hok
    cases hok
  rw [if_neg hplt, Except.ok.injEq] at hok
  subst hok
  have hpne : p ≠ 0 := by
    intro hc
    rw [hc] at hplt
    exact hplt (by norm_num [eps])
  have hA1 : AugN n M1 := by
    rw [hM1]
    exact swap_augN hA hi hkn
  have hU1 : UnitCols i n M1 := by
    rw [hM1]
    exact swap_unitCols hA hU hi hkn (le_refl i) hik
  have hz1 : ∀ c, c < i → (M1.getD i []).getD c 0 = 0 := by
    intro c hc
    have h2 := hU1 c hc i hi
    rwa [if_neg (by omega)] at h2
  have hrow1len : (M1.getD i []).length = n + 1 := hA1.2 i hi
  have hrow2get : ∀ j, j < n + 1 → row2.getD j 0 = (M1.getD i []).getD j 0 / p := by
    intro j hj
    rw [hrow2def]
    exact getD_scaleRowFrom hz1 (hrow1len ▸ hj)
  have hrow2len : row2.length = n + 1 := by
    rw [hrow2def, length_scaleRowFrom, hrow1len]
  have hM2len : M2.length = n := by
    rw [hM2, List.length_set, hA1.1]
  have hgetD2i : M2.getD i [] = row2 := by
    rw [hM2, getD_set, if_pos ⟨rfl, by rw [hA1.1]; exact hi⟩]
  have hgetD2r : ∀ r, r ≠ i → M2.getD r [] = M1.getD r [] := by
    intro r hrne
    rw [hM2, getD_set, if_neg (fun hc => hrne hc.1.symm)]
  have hA2 : AugN n M2 := by
    refine ⟨hM2len, fun r hr => ?_⟩
    by_cases hrne : r = i
    · rw [hrne, hgetD2i]
      exact hrow2len
    · rw [hgetD2r r hrne]
      exact hA1.2 r hr
  have hz2 : ∀ c, c < i → (M2.getD i []).getD c 0 = 0 := by
    intro c hc
    rw [hgetD2i, hrow2get c (by omega), hz1 c hc, zero_div]
  have hpiv2 : (M2.getD i []).getD i 0 = 1 := by
    rw [hgetD2i, hrow2get i (by omega)]
    exact div_self hpne
  obtain ⟨helen, heget⟩ := elimOthers_spec (n := n) (i := i) hM2len
  have hgetEr : ∀ r, r < n → r ≠ i → (elimOthers n i M2).getD r []
      = subRowFrom (M2.getD r []) (M2.getD i []) i (mget M2 r i) := by
    intro r h1 h2
    rw [heget r, if_pos ⟨h1, h2⟩]
  have hgetEi : (elimOthers n i M2).getD i [] = M2.getD i [] := by
    rw [heget i, if_neg (by omega)]
  refine ⟨?_, ?_, ?_⟩
  · refine ⟨helen, fun r hr => ?_⟩
    by_cases hri : r = i
    · rw [hri, hgetEi]
      exact hA2.2 i hi
    · rw [hgetEr r hr hri, length_subRowFrom]
      exact hA2.2 r hr
  · intro c hc r hr
    by_cases hri : r = i
    · have hrow : mget (elimOthers n i M2) r c = row2.getD c 0 := by
        rw [hri]
        exact congrArg (fun row : List ℚ => row.getD c 0) (hgetEi.trans hgetD2i)
      rw [hrow]
      rcases Nat.lt_succ_iff_lt_or_eq.mp hc with hci | hci
      · rw [hrow2get c (by omega), hz1 c hci, zero_div, if_neg (by omega)]
      · subst hci
        rw [hrow2get c (by omega), if_pos hri]
        have hpc : (M1.getD c []).getD c 0 = p := rfl
        rw [hpc]
        exact div_self hpne
    · have hrow : mget (elimOthers n i M2) r c
          = (M2.getD r []).getD c 0 - mget M2 r i * (M2.getD i []).getD c 0 := by
        show ((elimOthers n i M2).getD r []).getD c 0 = _
        rw [hgetEr r hr hri, getD_subRowFrom hz2 (by rw [hA2.2 r hr]; omega)]
      rw [hrow]
      rcases Nat.lt_succ_iff_lt_or_eq.mp hc with hci | hci
      · have h2 : (M2.getD r []).getD c 0 = if r = c then 1 else 0 := by
          rw [hgetD2r r hri]
          exact hU1 c hci r hr
        rw [h2, hz2 c hci, mul_zero, sub_zero]
      · subst hci
        rw [hpiv2, mul_one, if_neg hri]
        exact sub_eq_zero_of_eq rfl
  · intro y
    have heqrow2 : eqnRow row2 y n ↔ eqnRow (M1.getD i []) y n := by
      rw [hrow2def]
      exact eqn_scaleRow_iff hpne hrow1len hz1
    have hsol2 : isSol M2 n y ↔ isSol M1 n y := by
      rw [hM2]
      exact isSol_set_iff hA1.1 hi heqrow2
    have hsol1 : isSol M1 n y ↔ isSol M n y := by
      rw [hM1]
      exact swap_isSol hA hi hkn y
    rw [← hsol1, ← hsol2]
    constructor
    · intro hs r hr
      have heqn2 : eqnRow (M2.getD i []) y n := by
        have h2 := hs i hi
        rwa [hgetEi] at h2
      by_cases hri : r = i
      · rw [hri]
        exact heqn2
      · have h2 := hs r hr
        rw [hgetEr r hr hri] at h2
        exact (eqn_subRow_iff (hA2.2 r hr) hz2 heqn2).mp h2
    · intro hs r hr
      by_cases hri : r = i
      · rw [hri, hgetEi]
        exact hs i hi
      · rw [hgetEr r hr hri]
        exact (eqn_subRow_iff (hA2.2 r hr) hz2 (hs i hi)).mpr (hs r hr)

/-- Invariant carried through the elimination loop: shape, unit columns so
far, and preservation of the solution set. -/
theorem loop_inv {n : ℕ} : ∀ (d i : ℕ) (M Mf : List (List ℚ)), i + d ≤ n →
    AugN n M → UnitCols i n M →
    (List.range' i d).foldlM (gjStep n) M = Except.ok Mf →
    AugN n Mf ∧ UnitCols (i + d) n Mf ∧ ∀ y, isSol Mf n y ↔ isSol M n y
  | 0, i, M, Mf, hle, hA, hU, hok => by
    rw [List.range'_zero, List.foldlM_nil] at hok
    cases hok
    exact ⟨hA, by rwa [Nat.add_zero], fun y => Iff.rfl⟩
  | d + 1, i, M, Mf, hle, hA, hU, hok => by
    rw [List.range'_succ, List.foldlM_cons] at hok
    cases hgj : gjStep n M i with
    | error e =>
      rw [hgj] at hok
      simp only [Bind.bind, Except.bind] at hok
      cases hok
    | ok M1 =>
      rw [hgj] at hok
      simp only [Bind.bind, Except.bind] at hok
      have hi : i < n := by omega
      obtain ⟨hA1, hU1, hiff1⟩ := gjStep_ok_inv hi hA hU hgj
      obtain ⟨hAf, hUf, hifff⟩ := loop_inv d (i + 1) M1 Mf (by omega) hA1 hU1 hok
      exact ⟨hAf, by rwa [show i + (d + 1) = i + 1 + d from by omega],
        fun y => (hifff y).trans (hiff1 y)⟩

theorem length_augmentM (A : List (List ℚ)) (b : List ℚ) :
    (augmentM A b).length = min A.length b.length := by
  simp [augmentM]

theorem getD_augmentM : ∀ (A : List (List ℚ)) (b : List ℚ) (r : ℕ), r < A.length →
    r < b.length → (augmentM A b).getD r [] = (A.getD r []) ++ [b.getD r 0]
  | [], _, r, hr, _ => by simp at hr
  | _ :: _, [], r, _, hr => by simp at hr
  | row :: A, v :: b, 0, _, _ => rfl
  | row :: A, v :: b, r + 1, hr, hrb => by
    have := getD_augmentM A b r (by simpa using hr) (by simpa using hrb)
    simpa [augmentM] using this

theorem getD_map_range (g : ℕ → ℚ) {n r : ℕ} (hr : r < n) :
    ((List.range n).map g).getD r 0 = g r := by
  rw [List.getD_eq_getElem?_getD, List.getElem?_map, List.getElem?_range hr]
  rfl

theorem getLastD_eq_getD {l : List ℚ} {n : ℕ} (h : l.length = n + 1) :
    l.getLastD 0 = l.getD n 0 := by
  rw [List.getLastD_eq_getLast?, List.getLast?_eq_getElem?, List.getD_eq_getElem?_getD, h]
  rfl

theorem getD_append_lt {l : List ℚ} {v : ℚ} {j : ℕ} (hj : j < l.length) :
    (l ++ [v]).getD j 0 = l.getD j 0 := by
  rw [List.getD_eq_getElem?_getD, List.getD_eq_getElem?_getD, List.getElem?_append_left hj]

theorem getD_append_last {l : List ℚ} {v : ℚ} :
    (l ++ [v]).getD l.length 0 = v := by
  rw [List.getD_eq_getElem?_getD, List.getElem?_append_right (le_refl _)]
  simp

theorem length_matVec (A : List (List ℚ)) (y : List ℚ) : (matVec A y).length = A.length := by
  simp [matVec]

theorem getD_matVec {A : List (List ℚ)} (y : List ℚ) {r : ℕ} (hr : r < A.length) :
    (matVec A y).getD r 0
      = ∑ j ∈ Finset.range (A.getD r []).length, (A.getD r []).getD j 0 * y.getD j 0 := by
  unfold matVec
  rw [List.getD_eq_getElem?_getD, List.getElem?_map, List.getElem?_eq_getElem hr]
  simp [List.getD_eq_getElem?_getD, List.getElem?_eq_getElem hr]

theorem rowlen_eq {A : List (List ℚ)} {n : ℕ} (hrows : ∀ row ∈ A, row.length = n)
    {r : ℕ} (hr : r < A.length) : (A.getD r []).length = n := by
  have hmem : A.getD r [] ∈ A := by
    rw [List.getD_eq_getElem?_getD, List.getElem?_eq_getElem hr]
    exact List.getElem_mem hr
  exact hrows _ hmem

theorem matVec_eq_iff {A : List (List ℚ)} {b : List ℚ} {n : ℕ}
    (hn : A.length = n) (hrows : ∀ row ∈ A, row.length = n) (hb : b.length = n) (y : List ℚ) :
    matVec A y = b
      ↔ ∀ r, r < n → (∑ j ∈ Finset.range n, (A.getD r []).getD j 0 * y.getD j 0)
          = b.getD r 0 := by
  constructor
  · intro h r hr
    have h2 : (matVec A y).getD r 0 = b.getD r 0 := by rw [h]
    rw [getD_matVec y (hn ▸ hr), rowlen_eq hrows (hn ▸ hr)] at h2
    exact h2
  · intro h
    refine list_ext_getD 0 _ _ (by rw [length_matVec, hn, hb]) (fun r hr => ?_)
    rw [length_matVec, hn] at hr
    rw [getD_matVec y (hn ▸ hr), rowlen_eq hrows (hn ▸ hr)]
    exact h r hr

theorem isSol_augment_iff {A : List (List ℚ)} {b : List ℚ} {n : ℕ}
    (hn : A.length = n) (hrows : ∀ row ∈ A, row.length = n) (hb : b.length = n) (y : List ℚ) :
    isSol (augmentM A b) n y ↔ matVec A y = b := by
  rw [matVec_eq_iff hn hrows hb y]
  unfold isSol
  refine forall_congr' (fun r => forall_congr' (fun hr => ?_))
  unfold eqnRow
  rw [getD_augmentM A b r (by omega) (by omega)]
  have hrlen : (A.getD r []).length = n := rowlen_eq hrows (by omega)
  rw [show ((A.getD r []) ++ [b.getD r 0]).getD n 0 = b.getD r 0 from by
    rw [← hrlen]; exact getD_append_last]
  refine Eq.congr_left (Finset.sum_congr rfl (fun j hj => ?_))
  rw [getD_append_lt (by rw [hrlen]; exact Finset.mem_range.mp hj)]

theorem augment_augN {A : List (List ℚ)} {b : List ℚ} {n : ℕ}
    (hn : A.length = n) (hrows : ∀ row ∈ A, row.length = n) (hb : b.length = n) :
    AugN n (augmentM A b) := by
  refine ⟨by rw [length_augmentM, hn, hb, min_self], fun r hr => ?_⟩
  rw [getD_augmentM A b r (by omega) (by omega), List.length_append,
    rowlen_eq hrows (by omega)]
  rfl

/-- Soundness and uniqueness for a successful Gauss-Jordan solve: the
returned vector solves the system, and is its only solution. -/
theorem solve_ok_sound {A : List (List ℚ)} {b x' : List ℚ} {n : ℕ}
    (hn : A.length = n) (hrows : ∀ row ∈ A, row.length = n) (hb : b.length = n)
    (hok : solve_linear_system A b = Except.ok x') :
    x'.length = n ∧ matVec A x' = b ∧
      ∀ y, y.length = n → matVec A y = b → y = x' := by
  subst hn
  simp only [solve_linear_system] at hok
  cases hfold : (List.range A.length).foldlM (gjStep A.length) (augmentM A b) with
  | error e =>
    rw [hfold] at hok
    simp only [Except.map] at hok
    cases hok
  | ok Mf =>
    rw [hfold] at hok
    simp only [Except.map, Except.ok.injEq] at hok
    rw [List.range_eq_range'] at hfold
    obtain ⟨hAf, hUf, hiff⟩ := loop_inv A.length 0 (augmentM A b) Mf (by omega)
      (augment_augN rfl hrows hb) (fun c hc => absurd hc (Nat.not_lt_zero c)) hfold
    rw [Nat.zero_add] at hUf
    have hx'len : x'.length = A.length := by
      rw [← hok, List.length_map, List.length_range]
    have hx'get : ∀ r, r < A.length → x'.getD r 0 = (Mf.getD r []).getD A.length 0 := by
      intro r hr
      rw [← hok, getD_map_range _ hr, getLastD_eq_getD (hAf.2 r hr)]
    have hdsum : ∀ (y : List ℚ) (r : ℕ), r < A.length →
        (∑ j ∈ Finset.range A.length, (Mf.getD r []).getD j 0 * y.getD j 0)
          = y.getD r 0 := by
      intro y r hr
      have hrow : ∀ j, j < A.length → (Mf.getD r []).getD j 0 = if r = j then 1 else 0 :=
        fun j hj => hUf j hj r hr
      rw [Finset.sum_congr rfl (fun j hj => by
        rw [hrow j (Finset.mem_range.mp hj), ite_mul, one_mul, zero_mul])]
      rw [Finset.sum_ite_eq (Finset.range A.length) r (fun j => y.getD j 0),
        if_pos (Finset.mem_range.mpr hr)]
    have hMf : ∀ y, isSol Mf A.length y ↔ ∀ r, r < A.length → y.getD r 0 = x'.getD r 0 := by
      intro y
      constructor
      · intro hs r hr
        have he := hs r hr
        unfold eqnRow at he
        rw [hdsum y r hr] at he
        rw [he, hx'get r hr]
      · intro hy r hr
        unfold eqnRow
        rw [hdsum y r hr, hy r hr, hx'get r hr]
    have hself : isSol (augmentM A b) A.length x' := by
      rw [← hiff x']
      exact (hMf x').mpr (fun r hr => rfl)
    refine ⟨hx'len, (isSol_augment_iff rfl hrows hb x').mp hself, fun y hylen hyv => ?_⟩
    have hsoly : isSol (augmentM A b) A.length y := (isSol_augment_iff rfl hrows hb y).mpr hyv
    have hy := (hMf y).mp ((hiff y).mpr hsoly)
    exact list_ext_getD 0 y x' (by rw [hylen, hx'len]) (fun r hr => hy r (by omega))

/-- C1: for every square matrix `A` on which the elimination succeeds (no
pivot below `1e-12`, expressed as `solve_linear_system` returning `ok`) and
every vector `x` of matching length, solving `A · x' = A · x` recovers `x`
exactly over the rationals: the result satisfies the system and equals `x`. -/
theorem C1_round_trip {A : List (List ℚ)} {x x' : List ℚ}
    (hrows : ∀ row ∈ A, row.length = A.length) (hx : x.length = A.length)
    (hok : solve_linear_system A (matVec A x) = Except.ok x') :
    matVec A x' = matVec A x ∧ x' = x := by
  obtain ⟨hlen, hsat, huniq⟩ := solve_ok_sound rfl hrows (length_matVec A x) hok
  exact ⟨hsat, (huniq x hx rfl).symm⟩

/-- Witness for C1 at a concrete 2×2 system. -/
theorem C1_round_trip_witness :
    matVec [[(2 : ℚ), 1], [1, 3]] [1, 2] = matVec [[(2 : ℚ), 1], [1, 3]] [1, 2] ∧
      ([1, 2] : List ℚ) = [1, 2] :=
  @C1_round_trip [[(2 : ℚ), 1], [1, 3]] [1, 2] [1, 2]
    (by with_unfolding_all decide) (by with_unfolding_all decide)
    (by with_unfolding_all decide)

/-! ### Error behaviour of the solver -/

theorem foldlM_range_error_iff (f : List (List ℚ) → ℕ → Except String (List (List ℚ))) :
    ∀ (n : ℕ) (M0 : List (List ℚ)) (s : String),
      ((List.range n).foldlM f M0 = Except.error s)
        ↔ ∃ i, i < n ∧ ∃ Mi, (List.range i).foldlM f M0 = Except.ok Mi ∧
            f Mi i = Except.error s := by
  intro n
  induction n with
  | zero =>
    intro M0 s
    simp [List.range_zero, pure, Except.pure]
  | succ n ih =>
    intro M0 s
    rw [List.range_succ, List.foldlM_append]
    cases hf : (List.range n).foldlM f M0 with
    | error e =>
      simp only [Bind.bind, Except.bind]
      constructor
      · intro h
        rw [Except.error.injEq] at h
        subst h
        obtain ⟨i, hi, Mi, hpre, herr⟩ := (ih M0 e).mp hf
        exact ⟨i, by omega, Mi, hpre, herr⟩
      · rintro ⟨i, hi, Mi, hpre, herr⟩
        rcases Nat.lt_succ_iff_lt_or_eq.mp hi with hi' | hi'
        · have := (ih M0 s).mpr ⟨i, hi', Mi, hpre, herr⟩
          rw [hf, Except.error.injEq] at this
          rw [this]
        · subst hi'
          rw [hf] at hpre
          cases hpre
    | ok Mn =>
      simp only [Bind.bind, Except.bind, List.foldlM_cons, List.foldlM_nil]
      constructor
      · intro h
        cases hfn : f Mn n with
        | error e' =>
          rw [hfn] at h
          simp only [Bind.bind, Except.bind, Except.error.injEq] at h
          subst h
          exact ⟨n, Nat.lt_succ_self n, Mn, hf, hfn⟩
        | ok Mlast =>
          rw [hfn] at h
          simp only [Bind.bind, Except.bind, pure, Except.pure] at h
          cases h
      · rintro ⟨i, hi, Mi, hpre, herr⟩
        rcases Nat.lt_succ_iff_lt_or_eq.mp hi with hi' | hi'
        · have := (ih M0 s).mpr ⟨i, hi', Mi, hpre, herr⟩
          rw [hf] at this
          cases this
        · subst hi'
          rw [hf, Except.ok.injEq] at hpre
          subst hpre
          rw [herr]

theorem mget_swap_ii {M : List (List ℚ)} {i n : ℕ} (hi : i < n) (hlen : M.length = n) :
    mget (swapRows M i (pivotIdx M i n)) i i = mget M (pivotIdx M i n) i := by
  unfold mget
  rw [getD_swapRows M i (pivotIdx M i n) (by omega)
    (by rw [hlen]; exact (pivotIdx_bounds hi).2) i]
  by_cases hik : i = pivotIdx M i n
  · rw [if_pos hik, ← hik]
  · rw [if_neg hik, if_pos rfl]

theorem map_error_iff (e : Except String (List (List ℚ))) (g : List (List ℚ) → List ℚ)
    (s : String) : (e.map g = Except.error s) ↔ e = Except.error s := by
  cases e <;> simp [Except.map]

/-- Every error raised by `solve_linear_system` carries the message
`"Singular matrix"`. -/
theorem solve_error_msg {A : List (List ℚ)} {b : List ℚ} {s : String}
    (h : solve_linear_system A b = Except.error s) : s = "Singular matrix" := by
  simp only [solve_linear_system] at h
  rw [map_error_iff, foldlM_range_error_iff] at h
  obtain ⟨i, hi, Mi, hpre, herr⟩ := h
  simp only [gjStep] at herr
  by_cases hp : |mget (swapRows Mi i (pivotIdx Mi i A.length)) i i| < eps
  · rw [if_pos hp, Except.error.injEq] at herr
    exact herr.symm
  · rw [if_neg hp] at herr
    cases herr

/-- C4: `solve_linear_system` fails (necessarily with the message
`"Singular matrix"`) exactly when at some pivot column `i` the largest
absolute value in column `i` among rows `i..n-1` of the working augmented
matrix is below the fixed threshold `eps = 1e-12`; the `Except` result
carries no vector in that case. -/
theorem C4_singularity_iff {A : List (List ℚ)} {b : List ℚ} {s : String}
    (hrows : ∀ row ∈ A, row.length = A.length) (hb : b.length = A.length) :
    solve_linear_system A b = Except.error s
      ↔ (s = "Singular matrix" ∧ ∃ i, i < A.length ∧ ∃ Mi,
          (List.range i).foldlM (gjStep A.length) (augmentM A b) = Except.ok Mi ∧
          colMaxAbs Mi i A.length < eps) := by
  have hAi : ∀ i, i < A.length → ∀ Mi,
      (List.range i).foldlM (gjStep A.length) (augmentM A b) = Except.ok Mi →
      AugN A.length Mi := by
    intro i hi Mi hpre
    refine (loop_inv i 0 (augmentM A b) Mi (by omega) (augment_augN rfl hrows hb)
      (fun c hc => absurd hc (Nat.not_lt_zero c)) ?_).1
    rwa [← List.range_eq_range']
  simp only [solve_linear_system]
  rw [map_error_iff, foldlM_range_error_iff]
  constructor
  · rintro ⟨i, hi, Mi, hpre, herr⟩
    have hswap := mget_swap_ii hi (hAi i hi Mi hpre).1
    simp only [gjStep] at herr
    by_cases hp : |mget (swapRows Mi i (pivotIdx Mi i A.length)) i i| < eps
    · refine ⟨by rw [if_pos hp, Except.error.injEq] at herr; exact herr.symm, i, hi, Mi, hpre, ?_⟩
      rwa [hswap, pivot_abs_eq_colMaxAbs Mi hi] at hp
    · rw [if_neg hp] at herr
      cases herr
  · rintro ⟨hs, i, hi, Mi, hpre, hcm⟩
    subst hs
    refine ⟨i, hi, Mi, hpre, ?_⟩
    have hswap := mget_swap_ii hi (hAi i hi Mi hpre).1
    simp only [gjStep]
    rw [if_pos (by rw [hswap, pivot_abs_eq_colMaxAbs Mi hi]; exact hcm)]

/-- Witness for C4 at a concrete singular system (second row twice the
first): elimination fails at column 1. -/
theorem C4_singularity_iff_witness :
    solve_linear_system [[(1 : ℚ), 2], [2, 4]] [1, 2] = Except.error "Singular matrix"
      ↔ ("Singular matrix" = "Singular matrix" ∧ ∃ i, i < 2 ∧ ∃ Mi,
          (List.range i).foldlM (gjStep 2) (augmentM [[(1 : ℚ), 2], [2, 4]] [1, 2])
            = Except.ok Mi ∧ colMaxAbs Mi i 2 < eps) :=
  C4_singularity_iff (by with_unfolding_all decide) (by with_unfolding_all decide)

/-- C5: `dc_power_flow` fails with the dimension-mismatch error exactly when
the injection vector's length differs from the bus count.  The forward
direction holds for arbitrary line lists — no susceptance matrix or
elimination result can influence it — and when the lengths agree the only
possible error is the solver's `"Singular matrix"`. -/
theorem C5_dimension_iff (num_nodes : ℕ) (lines : List (ℕ × ℕ × ℚ)) (injections : List ℚ) :
    dc_power_flow num_nodes lines injections
        = Except.error "Mismatch between number of buses and injections"
      ↔ injections.length ≠ num_nodes := by
  simp only [dc_power_flow]
  by_cases hlen : injections.length ≠ num_nodes
  · rw [if_pos hlen]
    simp [hlen]
  · rw [if_neg hlen]
    simp only [hlen, iff_false]
    intro hcontra
    cases hsol : solve_linear_system
        ((((build_b_matrix num_nodes lines).drop 1).map (fun row => row.drop 1)))
        (injections.drop 1) with
    | ok v =>
      rw [hsol] at hcontra
      simp [Except.map] at hcontra
    | error s =>
      rw [hsol] at hcontra
      simp only [Except.map, Except.error.injEq] at hcontra
      have := solve_error_msg hsol
      rw [hcontra] at this
      exact absurd this (by decide)

/-! ### Claims C10, C3 and C9 about the Flow Engine -/

theorem solve_ok_length {A : List (List ℚ)} {b x' : List ℚ}
    (hok : solve_linear_system A b = Except.ok x') : x'.length = A.length := by
  simp only [solve_linear_system] at hok
  cases hfold : (List.range A.length).foldlM (gjStep A.length) (augmentM A b) with
  | error e =>
    rw [hfold] at hok
    simp [Except.map] at hok
  | ok Mf =>
    rw [hfold] at hok
    simp only [Except.map, Except.ok.injEq] at hok
    rw [← hok, List.length_map, List.length_range]

/-- C10: the degenerate empty system always succeeds without any check:
`solve_linear_system [] []` returns the empty vector, and a one-bus network
is accepted with any (even nonzero, unbalanced) slack injection `p`,
returning angles `[0.0]` and no flows. -/
theorem C10_degenerate (p : ℚ) :
    solve_linear_system [] [] = Except.ok [] ∧
      dc_power_flow 1 [] [p] = Except.ok ([0], []) := by
  constructor
  · rfl
  · rfl

/-- Witness for C10 at the slack injection `5`. -/
theorem C10_degenerate_witness :
    solve_linear_system [] [] = Except.ok [] ∧
      dc_power_flow 1 [] [(5 : ℚ)] = Except.ok ([0], []) :=
  C10_degenerate 5

/-- C3 (as stated) fails in the degenerate case `num_nodes = 0`: the call
succeeds but returns an angle vector `[0.0]` of length 1, not 0 — the code
always prepends the slack angle. -/
theorem C3_counterexample :
    dc_power_flow 0 [] [] = Except.ok ([0], []) ∧ ([(0 : ℚ)] : List ℚ).length ≠ 0 := by
  constructor
  · rfl
  · decide

/-- C3 (amended): on every successful call with `num_nodes ≥ 1`, the angle
vector has length `num_nodes`, its entry 0 is exactly `0`, and the flow
list is the input line list mapped one-to-one, in order, to
`(i, j, (angles[i] - angles[j]) / x)`. -/
theorem C3_output_form {num_nodes : ℕ} {lines : List (ℕ × ℕ × ℚ)}
    {injections angles : List ℚ} {flows : List (ℕ × ℕ × ℚ)} (hN : 1 ≤ num_nodes)
    (hok : dc_power_flow num_nodes lines injections = Except.ok (angles, flows)) :
    angles.length = num_nodes ∧ angles.getD 0 0 = 0 ∧
      flows = lines.map
        (fun l => (l.1, l.2.1, (angles.getD l.1 0 - angles.getD l.2.1 0) / l.2.2)) := by
  simp only [dc_power_flow] at hok
  by_cases hlen : injections.length ≠ num_nodes
  · rw [if_pos hlen] at hok
    cases hok
  rw [if_neg hlen] at hok
  cases hsol : solve_linear_system
      (((build_b_matrix num_nodes lines).drop 1).map (fun row => row.drop 1))
      (injections.drop 1) with
  | error e =>
    rw [hsol] at hok
    simp [Except.map] at hok
  | ok u =>
    rw [hsol] at hok
    simp only [Except.map, Except.ok.injEq, Prod.mk.injEq] at hok
    obtain ⟨hang, hfl⟩ := hok
    have hulen : u.length = num_nodes - 1 := by
      rw [solve_ok_length hsol, List.length_map, List.length_drop,
        (build_matN num_nodes lines).1]
    refine ⟨?_, ?_, ?_⟩
    · rw [← hang, List.length_cons, hulen]
      omega
    · rw [← hang]
      rfl
    · rw [← hang, ← hfl]

set_option maxRecDepth 4000 in
/-- Witness for C3 at the 3-bus sample network. -/
theorem C3_output_form_witness :
    ([0, -52/9, -76/9] : List ℚ).length = 3 ∧
      ([0, -52/9, -76/9] : List ℚ).getD 0 0 = 0 ∧
      ([(0, 1, (520 : ℚ)/9), (0, 2, 380/9), (1, 2, 160/9)] : List (ℕ × ℕ × ℚ))
        = ([(0, 1, (1 : ℚ)/10), (0, 2, 1/5), (1, 2, 3/20)] : List (ℕ × ℕ × ℚ)).map
            (fun l => (l.1, l.2.1,
              (([0, -52/9, -76/9] : List ℚ).getD l.1 0
                - ([0, -52/9, -76/9] : List ℚ).getD l.2.1 0) / l.2.2)) :=
  @C3_output_form 3 [(0, 1, 1/10), (0, 2, 1/5), (1, 2, 3/20)] [100, -40, -60]
    [0, -52/9, -76/9] [(0, 1, 520/9), (0, 2, 380/9), (1, 2, 160/9)]
    (by decide) (by with_unfolding_all decide)

set_option maxRecDepth 4000 in
/-- C9 (as stated) is false: on the fixed 3-bus example the computed angle
at bus 1 is exactly `-52/9 ≈ -5.7778` (direct solution of the reduced 2×2
system), which is nowhere near the claimed `-0.0495` to 4 decimal places. -/
theorem C9_counterexample :
    dc_power_flow 3 [(0, 1, 1/10), (0, 2, 1/5), (1, 2, 3/20)] [100, -40, -60]
        = Except.ok ([0, -52/9, -76/9], [(0, 1, 520/9), (0, 2, 380/9), (1, 2, 160/9)]) ∧
      ¬ |(-52 / 9 : ℚ) - (-0.0495)| ≤ 1 / 10 ^ 4 := by
  constructor
  · with_unfolding_all decide
  · intro hc
    rw [abs_le] at hc
    exact absurd hc.1 (by norm_num)

set_option maxRecDepth 4000 in
/-- C9 (amended): on the fixed example `dc_power_flow` returns
`angles[0] = 0`, `angles[1] = -52/9 ≈ -5.7778`, `angles[2] = -76/9 ≈
-8.4444` (the exact solution of the reduced 2×2 system), and the slack-bus
power balance `flow(0→1) + flow(0→2) = 520/9 + 380/9 = 100` holds exactly. -/
theorem C9_end_to_end :
    dc_power_flow 3 [(0, 1, 1/10), (0, 2, 1/5), (1, 2, 3/20)] [100, -40, -60]
        = Except.ok ([0, -52/9, -76/9], [(0, 1, 520/9), (0, 2, 380/9), (1, 2, 160/9)]) ∧
      (520 / 9 : ℚ) + 380 / 9 = 100 := by
  constructor
  · with_unfolding_all decide
  · norm_num

/-! ### Claim C6: disconnected networks make the reduced system singular -/

/-- Bus `v` is connected to the slack bus `0` through lines of `L`, in
either direction (lines are undirected network elements). -/
inductive Conn0 (L : List (ℕ × ℕ × ℚ)) : ℕ → Prop
  | slack : Conn0 L 0
  | fwd {a b : ℕ} {x : ℚ} : Conn0 L a → (a, b, x) ∈ L → Conn0 L b
  | bwd {a b : ℕ} {x : ℚ} : Conn0 L b → (a, b, x) ∈ L → Conn0 L a

theorem sum_guard_wt (N : ℕ) (P : Prop) [Decidable P] {a : ℕ} (ha : a < N) (c : ℚ)
    (z : ℕ → ℚ) :
    ∑ j ∈ Finset.range N, (if P ∧ a = j then c else 0) * z j
      = if P then c * z a else 0 := by
  by_cases hP : P
  · simp only [hP, true_and, if_true]
    rw [Finset.sum_congr rfl (fun j _ => by rw [ite_mul, zero_mul]),
      Finset.sum_ite_eq (Finset.range N) a (fun j => c * z j),
      if_pos (Finset.mem_range.mpr ha)]
  · simp [hP]

theorem sum_range_lineContrib_wt {N i : ℕ} (hi : i < N) {l : ℕ × ℕ × ℚ}
    (h1 : l.1 < N) (h2 : l.2.1 < N) (z : ℕ → ℚ) (hz : z l.1 = z l.2.1) :
    ∑ j ∈ Finset.range N, lineContrib N i j l * z j = 0 := by
  have expand : ∀ j ∈ Finset.range N, lineContrib N i j l * z j
      = (if l.1 = i ∧ l.1 = j then 1 / l.2.2 else 0) * z j
        + (if l.2.1 = i ∧ l.2.1 = j then 1 / l.2.2 else 0) * z j
        - (if l.1 = i ∧ l.2.1 = j then 1 / l.2.2 else 0) * z j
        - (if l.2.1 = i ∧ l.1 = j then 1 / l.2.2 else 0) * z j := by
    intro j hj
    rw [Finset.mem_range] at hj
    unfold lineContrib
    rw [if_pos ⟨hi, hj⟩]
    ring
  rw [Finset.sum_congr rfl expand, Finset.sum_sub_distrib, Finset.sum_sub_distrib,
    Finset.sum_add_distrib, sum_guard_wt N (l.1 = i) h1 (1 / l.2.2) z,
    sum_guard_wt N (l.2.1 = i) h2 (1 / l.2.2) z, sum_guard_wt N (l.1 = i) h2 (1 / l.2.2) z,
    sum_guard_wt N (l.2.1 = i) h1 (1 / l.2.2) z, hz]
  split_ifs <;> ring1

/-- Weighted row sums of the susceptance matrix vanish whenever the weight
function is constant along every line. -/
theorem build_weighted_row_sum {N : ℕ} {L : List (ℕ × ℕ × ℚ)} (z : ℕ → ℚ)
    (hv : ∀ l ∈ L, l.1 < N ∧ l.2.1 < N) (hconst : ∀ l ∈ L, z l.1 = z l.2.1)
    {i : ℕ} (hi : i < N) :
    ∑ j ∈ Finset.range N, mget (build_b_matrix N L) i j * z j = 0 := by
  have swap2 : ∀ L' : List (ℕ × ℕ × ℚ), (∀ l ∈ L', l.1 < N ∧ l.2.1 < N) →
      (∀ l ∈ L', z l.1 = z l.2.1) →
      ∑ j ∈ Finset.range N, (L'.map (lineContrib N i j)).sum * z j = 0 := by
    intro L' hv' hc'
    induction L' with
    | nil => simp
    | cons l L' ih =>
      have hl := hv' l (List.mem_cons_self l L')
      have hcl := hc' l (List.mem_cons_self l L')
      simp only [List.map_cons, List.sum_cons, add_mul, Finset.sum_add_distrib]
      rw [ih (fun u hu => hv' u (List.mem_cons_of_mem l hu))
          (fun u hu => hc' u (List.mem_cons_of_mem l hu)),
        sum_range_lineContrib_wt hi hl.1 hl.2 z hcl, add_zero]
  rw [Finset.sum_congr rfl (fun j _ => by rw [mget_build N L i j])]
  exact swap2 L hv hconst

theorem length_vecAdd (u v : List ℚ) : (vecAdd u v).length = min u.length v.length := by
  simp [vecAdd]

theorem getD_vecAdd : ∀ (u v : List ℚ) (j : ℕ), j < u.length → j < v.length →
    (vecAdd u v).getD j 0 = u.getD j 0 + v.getD j 0
  | [], _, j, hj, _ => by simp at hj
  | _ :: _, [], j, _, hj => by simp at hj
  | a :: u, b :: v, 0, _, _ => rfl
  | a :: u, b :: v, j + 1, hu, hv => by
    have := getD_vecAdd u v j (by simpa using hu) (by simpa using hv)
    simpa [vecAdd] using this

theorem vecAdd_zero_right : ∀ (b : List ℚ) (n : ℕ), b.length = n →
    vecAdd b (List.replicate n 0) = b
  | [], _, h => by rw [← h]; rfl
  | a :: b, n, h => by
    cases n with
    | zero => simp at h
    | succ n =>
      have := vecAdd_zero_right b n (by simpa using h)
      simpa [vecAdd, List.replicate] using this

theorem matVec_vecAdd {A : List (List ℚ)} {n : ℕ} (hrows : ∀ row ∈ A, row.length = n)
    (u v : List ℚ) (hu : u.length = n) (hv : v.length = n) :
    matVec A (vecAdd u v) = vecAdd (matVec A u) (matVec A v) := by
  refine list_ext_getD 0 _ _ ?_ (fun r hr => ?_)
  · rw [length_matVec, length_vecAdd, length_matVec, length_matVec, min_self]
  · rw [length_matVec] at hr
    have hrlen : (A.getD r []).length = n := rowlen_eq hrows hr
    rw [getD_matVec (vecAdd u v) hr,
      getD_vecAdd (matVec A u) (matVec A v) r (by rw [length_matVec]; exact hr)
        (by rw [length_matVec]; exact hr),
      getD_matVec u hr, getD_matVec v hr, hrlen, ← Finset.sum_add_distrib]
    refine Finset.sum_congr rfl (fun j hj => ?_)
    rw [getD_vecAdd u v j (by rw [hu]; exact Finset.mem_range.mp hj)
      (by rw [hv]; exact Finset.mem_range.mp hj)]
    ring

/-- If a nonzero kernel vector exists, Gauss-Jordan cannot succeed: the
solver necessarily reports an error. -/
theorem singular_solve_error {A : List (List ℚ)} {b y : List ℚ} {n : ℕ}
    (hn : A.length = n) (hrows : ∀ row ∈ A, row.length = n) (hb : b.length = n)
    (hy : y.length = n) (hy0 : y ≠ List.replicate n 0)
    (hker : matVec A y = List.replicate n 0) :
    ∃ s, solve_linear_system A b = Except.error s := by
  cases hres : solve_linear_system A b with
  | error s => exact ⟨s, rfl⟩
  | ok x' =>
    exfalso
    obtain ⟨hxlen, hsat, huniq⟩ := solve_ok_sound hn hrows hb hres
    have hzlen : (vecAdd x' y).length = n := by
      rw [length_vecAdd, hxlen, hy, min_self]
    have hz : matVec A (vecAdd x' y) = b := by
      rw [matVec_vecAdd hrows x' y hxlen hy, hker,
        vecAdd_zero_right (matVec A x') n (by rw [length_matVec, hn]), hsat]
    have heq := huniq (vecAdd x' y) hzlen hz
    apply hy0
    have hent : ∀ r, r < n → y.getD r 0 = 0 := by
      intro r hr
      have h1 : (vecAdd x' y).getD r 0 = x'.getD r 0 := by rw [heq]
      rw [getD_vecAdd x' y r (by omega) (by omega)] at h1
      linarith
    refine list_ext_getD 0 _ _ (by rw [hy, List.length_replicate]) (fun r hr => ?_)
    rw [hy] at hr
    rw [hent r hr, getD_replicate, if_pos hr]

theorem rows_length_of_matN {N : ℕ} {M : List (List ℚ)} (h : MatN N M) :
    ∀ row ∈ M, row.length = N := by
  intro row hrow
  obtain ⟨k, hk, hrfl⟩ := List.mem_iff_getElem.mp hrow
  have : M.getD k [] = row := by
    rw [List.getD_eq_getElem?_getD, List.getElem?_eq_getElem hk]
    exact hrfl
  rw [← this]
  exact h.2 k (h.1 ▸ hk)

/-- C6: in a valid network containing a bus `d` with no path of lines to
the slack bus 0, `dc_power_flow` fails with the Linear Solver's
`"Singular matrix"` error, propagated unchanged — no angle or flow result
is produced. -/
theorem C6_disconnected_singular {N : ℕ} {L : List (ℕ × ℕ × ℚ)} {injections : List ℚ}
    (hv : ∀ l ∈ L, l.1 < N ∧ l.2.1 < N ∧ l.2.2 ≠ 0) (hinj : injections.length = N)
    {d : ℕ} (hd : d < N) (hdis : ¬ Conn0 L d) :
    dc_power_flow N L injections = Except.error "Singular matrix" := by
  classical
  have hd1 : 1 ≤ d := by
    rcases Nat.eq_zero_or_pos d with h0 | h1
    · exact absurd (h0 ▸ Conn0.slack) hdis
    · exact h1
  simp only [dc_power_flow]
  rw [if_neg (by omega : ¬ injections.length ≠ N)]
  obtain ⟨m, rfl⟩ : ∃ m, N = m + 1 := ⟨N - 1, by omega⟩
  set z : ℕ → ℚ := fun v => if Conn0 L v then 0 else 1 with hzdef
  set y : List ℚ := (List.range m).map (fun k => z (k + 1)) with hydef
  set Bred : List (List ℚ) :=
    ((build_b_matrix (m + 1) L).drop 1).map (fun row => row.drop 1) with hBdef
  have hz0 : z 0 = 0 := by
    show (if Conn0 L 0 then (0 : ℚ) else 1) = 0
    exact if_pos Conn0.slack
  have hzd : z d = 1 := by
    show (if Conn0 L d then (0 : ℚ) else 1) = 1
    exact if_neg hdis
  have hedge : ∀ l ∈ L, z l.1 = z l.2.1 := by
    intro l hl
    show (if Conn0 L l.1 then (0 : ℚ) else 1) = (if Conn0 L l.2.1 then (0 : ℚ) else 1)
    by_cases hca : Conn0 L l.1
    · rw [if_pos hca, if_pos (Conn0.fwd hca hl)]
    · rw [if_neg hca, if_neg (fun hcb => hca (Conn0.bwd hcb hl))]
  have hBlen : Bred.length = m := by
    rw [hBdef, List.length_map, List.length_drop, (build_matN (m + 1) L).1]
    omega
  have hBrows : ∀ row ∈ Bred, row.length = m := by
    intro row hrow
    rw [hBdef] at hrow
    obtain ⟨row0, hrow0, hrfl⟩ := List.mem_map.mp hrow
    have hlen0 : row0.length = m + 1 :=
      rows_length_of_matN (build_matN (m + 1) L) row0 (List.mem_of_mem_drop hrow0)
    rw [← hrfl, List.length_drop, hlen0]
    omega
  have hBgetD : ∀ r, r < m →
      Bred.getD r [] = ((build_b_matrix (m + 1) L).getD (r + 1) []).drop 1 := by
    intro r hr
    rw [hBdef, getD_map_rows _ _ r
        (by rw [List.length_drop, (build_matN (m + 1) L).1]; omega),
      getD_drop, Nat.add_comm 1 r]
  have hylen : y.length = m := by
    rw [hydef, List.length_map, List.length_range]
  have hygetD : ∀ k, k < m → y.getD k 0 = z (k + 1) := by
    intro k hk
    rw [hydef]
    exact getD_map_range _ hk
  have hy0 : y ≠ List.replicate m 0 := by
    intro hc
    have h1 : y.getD (d - 1) 0 = z d := by
      rw [hygetD (d - 1) (by omega)]
      congr 1
      omega
    rw [hc, getD_replicate, if_pos (by omega)] at h1
    rw [hzd] at h1
    exact absurd h1 (by norm_num)
  have hker : matVec Bred y = List.replicate m 0 := by
    refine list_ext_getD 0 _ _
      (by rw [length_matVec, hBlen, List.length_replicate]) (fun r hr => ?_)
    rw [length_matVec, hBlen] at hr
    rw [getD_matVec y (by rw [hBlen]; exact hr), getD_replicate, if_pos hr]
    have hrowlen : (Bred.getD r []).length = m := by
      rw [hBgetD r hr, List.length_drop, (build_matN (m + 1) L).2 (r + 1) (by omega)]
      omega
    have hterm : ∀ j ∈ Finset.range m, (Bred.getD r []).getD j 0 * y.getD j 0
        = mget (build_b_matrix (m + 1) L) (r + 1) (j + 1) * z (j + 1) := by
      intro j hj
      rw [Finset.mem_range] at hj
      rw [hygetD j hj, hBgetD r hr, getD_drop, Nat.add_comm 1 j]
      rfl
    rw [hrowlen, Finset.sum_congr rfl hterm]
    have hfull := build_weighted_row_sum z (fun l hl => ⟨(hv l hl).1, (hv l hl).2.1⟩)
      hedge (show r + 1 < m + 1 from by omega)
    rw [Finset.sum_range_succ'] at hfull
    rw [hz0, mul_zero, add_zero] at hfull
    exact hfull
  obtain ⟨s, hs⟩ := singular_solve_error hBlen hBrows
    (by rw [List.length_drop, hinj]; omega : (injections.drop 1).length = m) hylen hy0 hker
  have hmsg := solve_error_msg hs
  subst hmsg
  rw [hs]
  rfl

/-- Witness for C6: a two-bus network with no lines — bus 1 has no path to
the slack bus. -/
theorem C6_disconnected_singular_witness :
    dc_power_flow 2 [] [0, 0] = Except.error "Singular matrix" :=
  C6_disconnected_singular (fun l hl => absurd hl (List.not_mem_nil l)) (by decide)
    (d := 1) (by decide)
    (by
      intro h
      cases h with
      | fwd h1 h2 => exact absurd h2 (List.not_mem_nil _)
      | bwd h1 h2 => exact absurd h2 (List.not_mem_nil _))

end PowerGrid
